import Mathlib

/-!
Shallow embedding of the byte-oriented finite-automaton engine of
`src/lib/finite_automata.rs` (types `FiniteAutomata`, `State`, `Transition`,
`FiniteAutomataError` and the operations `new`, `add_state`, `add_transition`,
`transition`).  Rust methods taking `&mut self` are embedded as explicit state
passing: a method returning `Result<(), E>` becomes a function returning
`Except E Unit × FiniteAutomata`, where the second component is the automaton
after the call.  Bytes are embedded as `Nat`; predicates are Lean functions
`Nat → Bool`, matching the boxed byte predicates of the source.
-/

/-- Embeds the Rust alias `type StateRef = usize`. -/
abbrev StateRef := Nat

/-- Embeds `struct Transition`: a predicate over one byte together with the
state entered when the predicate matches. -/
structure Transition where
  predicate : Nat → Bool
  result_state_ref : StateRef

/-- Embeds `struct State`: a unique reference and the ordered list of
transitions out of the state. -/
structure State where
  state_ref : StateRef
  transitions : List Transition

/-- Embeds `State::new`: a state with the given reference and no transitions. -/
def State.new (state_ref : StateRef) : State :=
  { state_ref := state_ref, transitions := [] }

/-- Embeds `State::add_transition`: the transition is pushed at the end of the
list of transitions, so it is tried only after all earlier ones. -/
def State.add_transition (s : State) (p : Nat → Bool) (result_state_ref : StateRef) : State :=
  { s with
      transitions :=
        s.transitions ++ [{ predicate := p, result_state_ref := result_state_ref }] }

/-- Embeds `enum FiniteAutomataError`. -/
inductive FiniteAutomataError where
  | MissingState : FiniteAutomataError
  | MissingTransition : FiniteAutomataError
deriving DecidableEq

/-- Embeds `struct FiniteAutomata`: the reference of the current state and the
vector of all states. -/
structure FiniteAutomata where
  current_state : StateRef
  states : List State

namespace FiniteAutomata

/-- Embeds `FiniteAutomata::new`: one initial state with reference `0`, which
is also the current state. -/
def new : FiniteAutomata :=
  { current_state := 0, states := [State.new 0] }

/-- Embeds `FiniteAutomata::add_state`: the fresh reference is the current
length of the state vector and the new state is pushed at the end; the call
always succeeds, returning the fresh reference. -/
def add_state (fa : FiniteAutomata) : StateRef × FiniteAutomata :=
  let state_ref := fa.states.length
  (state_ref, { fa with states := fa.states ++ [State.new state_ref] })

/-- Embeds `FiniteAutomata::add_transition`: fails with `MissingState` when
either reference is out of range (`state_ref >= state_count ||
resulting_state_ref >= state_count` in the source, and the `None` arm of
`find_state_mut`), otherwise appends `(p, resulting_state_ref)` to the
transition list of state `state_ref`. -/
def add_transition (fa : FiniteAutomata) (state_ref : StateRef) (p : Nat → Bool)
    (resulting_state_ref : StateRef) :
    Except FiniteAutomataError Unit × FiniteAutomata :=
  let state_count := fa.states.length
  if state_ref ≥ state_count ∨ resulting_state_ref ≥ state_count then
    (Except.error FiniteAutomataError.MissingState, fa)
  else
    match fa.states[state_ref]? with
    | none => (Except.error FiniteAutomataError.MissingState, fa)
    | some state =>
        (Except.ok (),
          { fa with
              states := fa.states.set state_ref
                (state.add_transition p resulting_state_ref) })

/-- Embeds `FiniteAutomata::transition`: looks up the current state, scans its
transitions in registration order and takes the first whose predicate matches
the byte; when none matches it fails with `MissingTransition` and leaves the
automaton unchanged.  Rust panics (the `.expect` on the current-state lookup)
when the current state is missing from the vector; the panic is embedded as
`none`. -/
def transition (fa : FiniteAutomata) (byte : Nat) :
    Option (Except FiniteAutomataError Unit × FiniteAutomata) :=
  match fa.states[fa.current_state]? with
  | none => none
  | some state =>
      match state.transitions.find? (fun t => t.predicate byte) with
      | some t => some (Except.ok (), { fa with current_state := t.result_state_ref })
      | none => some (Except.error FiniteAutomataError.MissingTransition, fa)

/-- Helper for `add_transition_all`: adds the same transition to each state
reference of the list in order, stopping at the first error. -/
def add_transition_list (fa : FiniteAutomata) (refs : List StateRef) (p : Nat → Bool)
    (to_state : StateRef) : Except FiniteAutomataError Unit × FiniteAutomata :=
  match refs with
  | [] => (Except.ok (), fa)
  | r :: rs =>
      match fa.add_transition r p to_state with
      | (Except.ok _, fa2) => fa2.add_transition_list rs p to_state
      | (Except.error e, fa2) => (Except.error e, fa2)

/-- Modelled from the spec: `add_transition_all(predicate, to)` lives in the
crate library imported by the day 3 part 2 and day 4 part 1 binaries, whose
source file is not present; per the spec it "applies the same transition to
every state currently registered", implemented "as a loop over existing state
identifiers at call time", so states added after the call do not receive the
rule. -/
def add_transition_all (fa : FiniteAutomata) (p : Nat → Bool) (to_state : StateRef) :
    Except FiniteAutomataError Unit × FiniteAutomata :=
  fa.add_transition_list (List.range fa.states.length) p to_state

/-- Runs `n` consecutive `add_state` calls, collecting the returned references
in call order together with the final automaton. -/
def add_states (fa : FiniteAutomata) : Nat → List StateRef × FiniteAutomata
  | 0 => ([], fa)
  | n + 1 =>
      let r := fa.add_state
      let rest := r.2.add_states n
      (r.1 :: rest.1, rest.2)

/-- Feeds a byte sequence one byte at a time, collecting each step's
success/failure result and the final automaton; `none` embeds a panic of the
current-state lookup. -/
def run (fa : FiniteAutomata) :
    List Nat → Option (List (Except FiniteAutomataError Unit) × FiniteAutomata)
  | [] => some ([], fa)
  | b :: bs =>
      match fa.transition b with
      | none => none
      | some (r, fa2) =>
          match fa2.run bs with
          | none => none
          | some (rs, fa3) => some (r :: rs, fa3)

end FiniteAutomata

/-- Construction step of an automaton: an `add_state` call or an
`add_transition` call. -/
inductive BuildOp where
  | addState : BuildOp
  | addTransition : StateRef → (Nat → Bool) → StateRef → BuildOp

/-- Applies one construction step to an automaton, keeping the automaton the
call leaves behind. -/
def FiniteAutomata.apply_op (fa : FiniteAutomata) : BuildOp → FiniteAutomata
  | BuildOp.addState => (fa.add_state).2
  | BuildOp.addTransition r p t => (fa.add_transition r p t).2

/-- Builds an automaton from `new()` by a sequence of construction steps. -/
def build (ops : List BuildOp) : FiniteAutomata :=
  ops.foldl FiniteAutomata.apply_op FiniteAutomata.new

/-- Automata reachable from `new()` by any sequence of `add_state`,
`add_transition` and `transition` calls. -/
inductive Reachable : FiniteAutomata → Prop where
  | base : Reachable FiniteAutomata.new
  | step_add_state {fa : FiniteAutomata} :
      Reachable fa → Reachable (fa.add_state).2
  | step_add_transition {fa : FiniteAutomata} {r : StateRef} {p : Nat → Bool} {t : StateRef} :
      Reachable fa → Reachable (fa.add_transition r p t).2
  | step_transition {fa fa2 : FiniteAutomata} {b : Nat} {res : Except FiniteAutomataError Unit} :
      Reachable fa → fa.transition b = some (res, fa2) → Reachable fa2

/-- Evolution of one automaton under any sequence of `add_state`,
`add_transition` and `transition` calls: `Evolves fa fa2` holds when `fa2` is
the automaton left behind by some such sequence started on `fa`. -/
inductive Evolves : FiniteAutomata → FiniteAutomata → Prop where
  | refl (fa : FiniteAutomata) : Evolves fa fa
  | step_add_state {fa fa2 : FiniteAutomata} :
      Evolves fa fa2 → Evolves fa (fa2.add_state).2
  | step_add_transition {fa fa2 : FiniteAutomata} {r : StateRef} {p : Nat → Bool} {t : StateRef} :
      Evolves fa fa2 → Evolves fa (fa2.add_transition r p t).2
  | step_transition {fa fa2 fa3 : FiniteAutomata} {b : Nat} {res : Except FiniteAutomataError Unit} :
      Evolves fa fa2 → fa2.transition b = some (res, fa3) → Evolves fa fa3

/-- Concrete automaton used by witnesses: two fresh states `1` and `2`, and on
state `0` the transitions `(c == 120 ↦ 1)` then `(always ↦ 2)`, registered in
that order. -/
def exampleAutomata : FiniteAutomata :=
  let r1 := FiniteAutomata.new.add_state
  let r2 := r1.2.add_state
  let a1 := (r2.2.add_transition 0 (fun c => c == 120) r1.1).2
  (a1.add_transition 0 (fun _ => true) r2.1).2

/-- Concrete automaton used by the C10 witness: one fresh state `1` and a
catch-all transition from state `0` to state `1`. -/
def exampleAutomata2 : FiniteAutomata :=
  let r1 := FiniteAutomata.new.add_state
  (r1.2.add_transition 0 (fun _ => true) r1.1).2

/-! Helper lemmas. -/

/-- Successor equation of `add_states`, stated for rewriting. -/
lemma FiniteAutomata.add_states_succ (fa : FiniteAutomata) (n : Nat) :
    fa.add_states (n + 1) =
      ((fa.add_state).1 :: ((fa.add_state).2.add_states n).1,
        ((fa.add_state).2.add_states n).2) := rfl

/-- Length of the state vector after an `add_state` call. -/
lemma FiniteAutomata.add_state_length (fa : FiniteAutomata) :
    (fa.add_state).2.states.length = fa.states.length + 1 := by
  simp [FiniteAutomata.add_state]

/-- The references returned by `n` consecutive `add_state` calls are the `n`
consecutive integers starting at the state count at the first call. -/
lemma FiniteAutomata.add_states_fst (n : Nat) :
    ∀ fa : FiniteAutomata, (fa.add_states n).1 = List.range' fa.states.length n := by
  induction n with
  | zero => intro fa; rfl
  | succ n ih =>
      intro fa
      rw [FiniteAutomata.add_states_succ, List.range'_succ]
      have h1 : (fa.add_state).1 = fa.states.length := rfl
      have h2 := ih (fa.add_state).2
      rw [FiniteAutomata.add_state_length] at h2
      rw [h1, h2]

/-- First-match property of `List.find?`: if position `i` holds a match and
every earlier position holds a non-match, `find?` returns the element at `i`. -/
lemma find_first_match {α : Type} (p : α → Bool) :
    ∀ (l : List α) (i : Nat) (x : α), l[i]? = some x → p x = true →
      (∀ j, j < i → ∀ y, l[j]? = some y → p y = false) →
      l.find? p = some x := by
  intro l
  induction l with
  | nil => intro i x hx _ _; simp at hx
  | cons a l ih =>
      intro i x hx hpx hfirst
      cases i with
      | zero =>
          simp only [List.getElem?_cons_zero, Option.some.injEq] at hx
          subst hx
          exact List.find?_cons_of_pos l hpx
      | succ i =>
          have ha : p a = false := hfirst 0 (Nat.succ_pos i) a List.getElem?_cons_zero
          rw [List.find?_cons_of_neg l (by simp [ha])]
          simp only [List.getElem?_cons_succ] at hx
          exact ih i x hx hpx
            (fun j hj y hy =>
              hfirst (j + 1) (Nat.succ_lt_succ hj) y (List.getElem?_cons_succ.trans hy))

/-- Length of the state vector is unchanged by an `add_transition` call,
successful or not. -/
lemma FiniteAutomata.add_transition_states_length (fa : FiniteAutomata) (r : StateRef)
    (p : Nat → Bool) (t : StateRef) :
    ((fa.add_transition r p t).2).states.length = fa.states.length := by
  by_cases hc : r ≥ fa.states.length ∨ t ≥ fa.states.length
  · simp [FiniteAutomata.add_transition, if_pos hc]
  · cases hget : fa.states[r]? with
    | none => simp [FiniteAutomata.add_transition, if_neg hc, hget]
    | some st => simp [FiniteAutomata.add_transition, if_neg hc, hget]

/-- A `transition` call, successful or not, leaves the state vector unchanged. -/
lemma FiniteAutomata.transition_snd_states {fa fa2 : FiniteAutomata} {b : Nat}
    {res : Except FiniteAutomataError Unit}
    (h : fa.transition b = some (res, fa2)) : fa2.states = fa.states := by
  cases hget : fa.states[fa.current_state]? with
  | none => simp [FiniteAutomata.transition, hget] at h
  | some st =>
      cases hfind : st.transitions.find? (fun t => t.predicate b) with
      | some t =>
          simp only [FiniteAutomata.transition, hget, hfind, Option.some.injEq,
            Prod.mk.injEq] at h
          obtain ⟨-, h2⟩ := h
          rw [← h2]
      | none =>
          simp only [FiniteAutomata.transition, hget, hfind, Option.some.injEq,
            Prod.mk.injEq] at h
          obtain ⟨-, h2⟩ := h
          rw [← h2]

/-- Along any evolution the state vector never shrinks. -/
lemma evolves_length_le {fa fa2 : FiniteAutomata} (h : Evolves fa fa2) :
    fa.states.length ≤ fa2.states.length := by
  induction h with
  | refl => exact Nat.le_refl _
  | step_add_state hev ih =>
      rename_i fa2
      rw [FiniteAutomata.add_state_length]
      exact Nat.le_succ_of_le ih
  | step_add_transition hev ih =>
      rename_i fa2 r p t
      rw [FiniteAutomata.add_transition_states_length]
      exact ih
  | step_transition hev heq ih =>
      rw [FiniteAutomata.transition_snd_states heq]
      exact ih

/-! Claim theorems. -/

/-- Claim C5: every `add_state()` call succeeds (it is a total function of the
embedding), the initial state created by `new()` has the fixed identifier `0`
(it is both the current state and the only registered state), each `add_state`
call grows the registry size by exactly one, and every returned identifier is
strictly greater than every previously returned identifier: both across
consecutive `add_state` calls, and across any interleaving of `add_state`,
`add_transition` and `transition` calls between two `add_state` calls. -/
theorem add_state_monotonic_and_initial_zero :
    FiniteAutomata.new.current_state = 0 ∧
    FiniteAutomata.new.states.map State.state_ref = [0] ∧
    (∀ fa : FiniteAutomata, (fa.add_state).2.states.length = fa.states.length + 1) ∧
    (∀ (fa : FiniteAutomata) (n : Nat), ((fa.add_states n).1).Pairwise (· < ·)) ∧
    (∀ fa fa2 : FiniteAutomata, Evolves (fa.add_state).2 fa2 →
      (fa.add_state).1 < (fa2.add_state).1) := by
  refine ⟨rfl, rfl, FiniteAutomata.add_state_length, ?_, ?_⟩
  · intro fa n
    rw [FiniteAutomata.add_states_fst]
    exact List.pairwise_lt_range' fa.states.length n
  · intro fa fa2 hev
    have hle := evolves_length_le hev
    rw [FiniteAutomata.add_state_length] at hle
    exact Nat.lt_of_succ_le hle

/-- Witness for C5 at a concrete input: the identifier returned by the first
`add_state` call on `new()` is smaller than the one returned after one more
intervening `add_state` call. -/
theorem add_state_monotonic_and_initial_zero_witness :
    (FiniteAutomata.new.add_state).1 <
      ((((FiniteAutomata.new.add_state).2).add_state).2.add_state).1 :=
  add_state_monotonic_and_initial_zero.2.2.2.2 FiniteAutomata.new
    (((FiniteAutomata.new.add_state).2).add_state).2
    (Evolves.step_add_state (Evolves.refl (FiniteAutomata.new.add_state).2))

/-- Claim C9: the identifiers issued are exactly the consecutive integers:
`add_state()` on an automaton holding `n` states returns exactly `n`, the
identifiers returned by `n` consecutive calls after `new()` are `[1, …, n]`,
and in particular the `k`-th call after `new()` (position `j = k - 1`) returns
exactly `k = j + 1`. -/
theorem add_state_returns_consecutive_ids :
    (∀ fa : FiniteAutomata, (fa.add_state).1 = fa.states.length) ∧
    (∀ n : Nat, (FiniteAutomata.new.add_states n).1 = List.range' 1 n) ∧
    (∀ n j : Nat, j < n → (FiniteAutomata.new.add_states n).1[j]? = some (j + 1)) := by
  have hrange : ∀ n : Nat, (FiniteAutomata.new.add_states n).1 = List.range' 1 n := by
    intro n
    rw [FiniteAutomata.add_states_fst]
    rfl
  refine ⟨fun fa => rfl, hrange, ?_⟩
  intro n j hj
  rw [hrange n]
  simp [List.getElem?_range' 1 1 hj, Nat.add_comm]

/-- Witness for C9 at a concrete input: the second of three `add_state` calls
after `new()` returns identifier `2`. -/
theorem add_state_returns_consecutive_ids_witness :
    (FiniteAutomata.new.add_states 3).1[1]? = some 2 :=
  add_state_returns_consecutive_ids.2.2 3 1 (by decide)

/-- Claim C3: `add_transition(from, p, to)` fails with `MissingState` iff
`from` or `to` is not among the identifiers allocated at the time of the call
(the allocated identifiers being exactly those below the registry size);
moreover the check is per call: if the call fails on `fa` but both identifiers
are in range after one further `add_state`, the same call on the grown
automaton succeeds while the original call on `fa` still failed. -/
theorem add_transition_missing_state_iff (fa : FiniteAutomata) (state_ref : StateRef)
    (p : Nat → Bool) (resulting_state_ref : StateRef) :
    ((fa.add_transition state_ref p resulting_state_ref).1 =
        Except.error FiniteAutomataError.MissingState ↔
      (fa.states.length ≤ state_ref ∨ fa.states.length ≤ resulting_state_ref)) ∧
    (fa.states.length ≤ state_ref →
      state_ref < (fa.add_state).2.states.length →
      resulting_state_ref < (fa.add_state).2.states.length →
      (fa.add_transition state_ref p resulting_state_ref).1 =
          Except.error FiniteAutomataError.MissingState ∧
        ((fa.add_state).2.add_transition state_ref p resulting_state_ref).1 =
          Except.ok ()) := by
  have main : ∀ (fa2 : FiniteAutomata) (r t : StateRef),
      ((fa2.add_transition r p t).1 = Except.error FiniteAutomataError.MissingState ↔
        (fa2.states.length ≤ r ∨ fa2.states.length ≤ t)) := by
    intro fa2 r t
    by_cases hc : r ≥ fa2.states.length ∨ t ≥ fa2.states.length
    · simp only [FiniteAutomata.add_transition, if_pos hc]
      exact ⟨fun _ => hc, fun _ => trivial⟩
    · push_neg at hc
      obtain ⟨h1, h2⟩ := hc
      have hsome : ∃ st, fa2.states[r]? = some st := by
        cases hget : fa2.states[r]? with
        | none => exact absurd (List.getElem?_eq_none_iff.mp hget) (Nat.not_le_of_lt h1)
        | some st => exact ⟨st, rfl⟩
      obtain ⟨st, hst⟩ := hsome
      simp only [FiniteAutomata.add_transition,
        if_neg (by push_neg; exact ⟨h1, h2⟩ : ¬(r ≥ fa2.states.length ∨ t ≥ fa2.states.length)),
        hst]
      constructor
      · intro h; cases h
      · intro h
        cases h with
        | inl h => exact absurd h (Nat.not_le_of_lt h1)
        | inr h => exact absurd h (Nat.not_le_of_lt h2)
  refine ⟨main fa state_ref resulting_state_ref, ?_⟩
  intro hout hin1 hin2
  constructor
  · exact (main fa state_ref resulting_state_ref).mpr (Or.inl hout)
  · have hiff := main (fa.add_state).2 state_ref resulting_state_ref
    cases hres : ((fa.add_state).2.add_transition state_ref p resulting_state_ref).1 with
    | error e =>
        cases e with
        | MissingState =>
            have := hiff.mp hres
            cases this with
            | inl h => exact absurd hin1 (Nat.not_lt_of_le h)
            | inr h => exact absurd hin2 (Nat.not_lt_of_le h)
        | MissingTransition =>
            exfalso
            revert hres
            simp only [FiniteAutomata.add_transition]
            by_cases hc : state_ref ≥ (fa.add_state).2.states.length ∨
                resulting_state_ref ≥ (fa.add_state).2.states.length
            · simp [if_pos hc]
            · simp only [if_neg hc]
              cases hget : (fa.add_state).2.states[state_ref]? with
              | none => simp [hget]
              | some st => simp [hget]
    | ok u => cases u; rfl

/-- Witness for C3 at a concrete input: on `new()` (one allocated identifier,
`0`), registering a transition from the not-yet-allocated identifier `1`
fails with `MissingState`, and the same call succeeds after one `add_state`. -/
theorem add_transition_missing_state_iff_witness :
    (FiniteAutomata.new.add_transition 1 (fun _ => true) 0).1 =
        Except.error FiniteAutomataError.MissingState ∧
      ((FiniteAutomata.new.add_state).2.add_transition 1 (fun _ => true) 0).1 =
        Except.ok () :=
  (add_transition_missing_state_iff FiniteAutomata.new 1 (fun _ => true) 0).2
    (by decide) (by decide) (by decide)

/-- Claim C6: whenever `add_transition` fails with `MissingState`, the whole
registry is unchanged by the call: the automaton returned is exactly the
automaton before the call, so the set of states and every state's transition
list are the same. -/
theorem add_transition_failed_frame (fa : FiniteAutomata) (state_ref : StateRef)
    (p : Nat → Bool) (resulting_state_ref : StateRef)
    (h : (fa.add_transition state_ref p resulting_state_ref).1 =
      Except.error FiniteAutomataError.MissingState) :
    (fa.add_transition state_ref p resulting_state_ref).2 = fa := by
  by_cases hc : state_ref ≥ fa.states.length ∨ resulting_state_ref ≥ fa.states.length
  · simp [FiniteAutomata.add_transition, if_pos hc]
  · revert h
    simp only [FiniteAutomata.add_transition, if_neg hc]
    cases hget : fa.states[state_ref]? with
    | none => intro _; rfl
    | some st => intro h; cases h

/-- Witness for C6 at a concrete input: the failed call
`add_transition(0, p, 999)` on a fresh automaton leaves it unchanged. -/
theorem add_transition_failed_frame_witness :
    (FiniteAutomata.new.add_transition 0 (fun _ => true) 999).2 = FiniteAutomata.new :=
  add_transition_failed_frame FiniteAutomata.new 0 (fun _ => true) 999 rfl

/-- Claim C1: with the current state's transitions registered in list order,
for a byte matched by the predicate at position `i` while every predicate at an
earlier position rejects it, `transition` succeeds and sets the current state
to the target registered at position `i`; later positions never determine the
result (registration order is match priority, since `State::add_transition`
appends at the end). -/
theorem transition_first_match_wins (fa : FiniteAutomata) (st : State) (b : Nat)
    (i : Nat) (tr : Transition)
    (hst : fa.states[fa.current_state]? = some st)
    (htr : st.transitions[i]? = some tr)
    (hmatch : tr.predicate b = true)
    (hfirst : ∀ j, j < i → ∀ tr2, st.transitions[j]? = some tr2 →
      tr2.predicate b = false) :
    fa.transition b =
      some (Except.ok (), { fa with current_state := tr.result_state_ref }) := by
  have hfind : st.transitions.find? (fun t => t.predicate b) = some tr :=
    find_first_match (fun t => t.predicate b) st.transitions i tr htr hmatch hfirst
  simp [FiniteAutomata.transition, hst, hfind]

/-- Witness for C1 at a concrete input: on `exampleAutomata`, byte `120`
matches both registered predicates of state `0`, and `transition` takes the
first one, moving to state `1` (never state `2`). -/
theorem transition_first_match_wins_witness :
    exampleAutomata.transition 120 =
      some (Except.ok (), { exampleAutomata with current_state := 1 }) :=
  transition_first_match_wins exampleAutomata
    { state_ref := 0,
      transitions :=
        [{ predicate := fun c => c == 120, result_state_ref := 1 },
         { predicate := fun _ => true, result_state_ref := 2 }] }
    120 0
    { predicate := fun c => c == 120, result_state_ref := 1 }
    rfl rfl rfl
    (fun j hj _ _ => absurd hj (Nat.not_lt_zero j))

/-- Claim C2: for an automaton whose current state exists in the registry,
`transition(b)` fails with `MissingTransition` (returning the automaton
unchanged, so the current-state identifier after the call equals the one
before) if and only if no predicate registered on the current state returns
true on `b`. -/
theorem transition_missing_transition_iff (fa : FiniteAutomata) (st : State) (b : Nat)
    (hst : fa.states[fa.current_state]? = some st) :
    (fa.transition b =
        some (Except.error FiniteAutomataError.MissingTransition, fa) ↔
      ∀ tr ∈ st.transitions, tr.predicate b = false) := by
  cases hfind : st.transitions.find? (fun t => t.predicate b) with
  | some t =>
      constructor
      · intro h
        simp [FiniteAutomata.transition, hst, hfind] at h
      · intro h
        have hmem := List.mem_of_find?_eq_some hfind
        have hp := List.find?_some hfind
        simp [h t hmem] at hp
  | none =>
      constructor
      · intro _ tr hmem
        have := List.find?_eq_none.mp hfind tr hmem
        simpa using this
      · intro _
        simp [FiniteAutomata.transition, hst, hfind]

/-- Witness for C2 at a concrete input: `new()` has no transitions on its only
state, so feeding any byte fails with `MissingTransition` and leaves the
automaton unchanged. -/
theorem transition_missing_transition_iff_witness :
    (FiniteAutomata.new.transition 97 =
        some (Except.error FiniteAutomataError.MissingTransition, FiniteAutomata.new) ↔
      ∀ tr ∈ (State.new 0).transitions, tr.predicate 97 = false) :=
  transition_missing_transition_iff FiniteAutomata.new (State.new 0) 97 rfl

/-- Invariant of reachable automata: the current-state identifier and every
stored transition target are in range of the state vector. -/
lemma reachable_invariant {fa : FiniteAutomata} (h : Reachable fa) :
    fa.current_state < fa.states.length ∧
      ∀ st ∈ fa.states, ∀ tr ∈ st.transitions,
        tr.result_state_ref < fa.states.length := by
  induction h with
  | base =>
      refine ⟨Nat.zero_lt_one, ?_⟩
      intro st hst tr htr
      simp only [FiniteAutomata.new, List.mem_singleton] at hst
      subst hst
      simp [State.new] at htr
  | @step_add_state fa hr ih =>
      obtain ⟨ih1, ih2⟩ := ih
      simp only [FiniteAutomata.add_state, List.length_append, List.length_singleton]
      constructor
      · exact Nat.lt_succ_of_lt ih1
      · intro st hst tr htr
        rcases List.mem_append.mp hst with hmem | hmem
        · exact Nat.lt_succ_of_lt (ih2 st hmem tr htr)
        · simp only [List.mem_singleton] at hmem
          subst hmem
          simp [State.new] at htr
  | @step_add_transition fa r p t hr ih =>
      obtain ⟨ih1, ih2⟩ := ih
      by_cases hc : r ≥ fa.states.length ∨ t ≥ fa.states.length
      · simpa only [FiniteAutomata.add_transition, if_pos hc] using ⟨ih1, ih2⟩
      · push_neg at hc
        obtain ⟨h1, h2⟩ := hc
        have hsome : ∃ st, fa.states[r]? = some st := by
          cases hget : fa.states[r]? with
          | none => exact absurd (List.getElem?_eq_none_iff.mp hget) (Nat.not_le_of_lt h1)
          | some st => exact ⟨st, rfl⟩
        obtain ⟨st, hst⟩ := hsome
        simp only [FiniteAutomata.add_transition, if_neg (by push_neg; exact ⟨h1, h2⟩ :
          ¬(r ≥ fa.states.length ∨ t ≥ fa.states.length)), hst, List.length_set]
        constructor
        · exact ih1
        · intro st2 hmem tr htr
          rcases List.mem_or_eq_of_mem_set hmem with hmem2 | hmem2
          · exact ih2 st2 hmem2 tr htr
          · subst hmem2
            simp only [State.add_transition, List.mem_append, List.mem_singleton] at htr
            rcases htr with htr2 | htr2
            · exact ih2 st (List.getElem?_mem hst) tr htr2
            · subst htr2
              exact h2
  | @step_transition fa fa2 b res hr heq ih =>
      obtain ⟨ih1, ih2⟩ := ih
      cases hget : fa.states[fa.current_state]? with
      | none => simp [FiniteAutomata.transition, hget] at heq
      | some st =>
          cases hfind : st.transitions.find? (fun t => t.predicate b) with
          | some t =>
              simp only [FiniteAutomata.transition, hget, hfind, Option.some.injEq,
                Prod.mk.injEq] at heq
              obtain ⟨-, heq2⟩ := heq
              subst heq2
              refine ⟨?_, ih2⟩
              exact ih2 st (List.getElem?_mem hget) t (List.mem_of_find?_eq_some hfind)
          | none =>
              simp only [FiniteAutomata.transition, hget, hfind, Option.some.injEq,
                Prod.mk.injEq] at heq
              obtain ⟨-, heq2⟩ := heq
              subst heq2
              exact ⟨ih1, ih2⟩

/-- Claim C4: in every automaton reachable from `new()` by `add_state`,
`add_transition` and `transition` calls, the current-state identifier refers to
an existing state, every transition target stored in any state's transition
list refers to an existing state, and consequently the internal current-state
lookup in `transition` never fails (the embedded panic `none` is unreachable). -/
theorem reachable_states_exist {fa : FiniteAutomata} (h : Reachable fa) :
    fa.current_state < fa.states.length ∧
      (∀ st ∈ fa.states, ∀ tr ∈ st.transitions,
        tr.result_state_ref < fa.states.length) ∧
      (∀ b, fa.transition b ≠ none) := by
  obtain ⟨h1, h2⟩ := reachable_invariant h
  refine ⟨h1, h2, ?_⟩
  intro b
  have hsome : ∃ st, fa.states[fa.current_state]? = some st := by
    cases hget : fa.states[fa.current_state]? with
    | none => exact absurd (List.getElem?_eq_none_iff.mp hget) (Nat.not_le_of_lt h1)
    | some st => exact ⟨st, rfl⟩
  obtain ⟨st, hst⟩ := hsome
  cases hfind : st.transitions.find? (fun t => t.predicate b) with
  | some t => simp [FiniteAutomata.transition, hst, hfind]
  | none => simp [FiniteAutomata.transition, hst, hfind]

/-- Witness for C4 at a concrete input: on the freshly constructed automaton,
the current-state lookup of `transition` does not fail for byte `120`. -/
theorem reachable_states_exist_witness :
    FiniteAutomata.new.transition 120 ≠ none :=
  (reachable_states_exist Reachable.base).2.2 120

/-- Claim C7 (spec-modelled `add_transition_all`): a state created by an
`add_state()` call made after an `add_transition_all(p, s1)` call does not
carry the bulk rule; with no other transitions registered on it, feeding a
byte satisfying `p` while it is the current state fails with
`MissingTransition`. -/
theorem add_transition_all_not_retroactive (fa : FiniteAutomata) (p : Nat → Bool)
    (s1 : StateRef) (b : Nat) (_hp : p b = true) :
    (let fa1 := (fa.add_transition_all p s1).2
     let s2 := (fa1.add_state).1
     let fa2 := { (fa1.add_state).2 with current_state := s2 }
     fa2.transition b = some (Except.error FiniteAutomataError.MissingTransition, fa2)) := by
  simp only [FiniteAutomata.transition, FiniteAutomata.add_state,
    List.getElem?_concat_length, State.new, List.find?_nil]

/-- Witness for C7 at a concrete input: after `add_transition_all` of a
catch-all rule on `new()` and one subsequent `add_state()`, the new state
rejects byte `65` with `MissingTransition` even though the predicate accepts
it. -/
theorem add_transition_all_not_retroactive_witness :
    (let fa1 := (FiniteAutomata.new.add_transition_all (fun _ => true) 0).2
     let s2 := (fa1.add_state).1
     let fa2 := { (fa1.add_state).2 with current_state := s2 }
     fa2.transition 65 = some (Except.error FiniteAutomataError.MissingTransition, fa2)) :=
  add_transition_all_not_retroactive FiniteAutomata.new (fun _ => true) 0 65 rfl

/-- Claim C8: `transition` is deterministic in the automaton's construction:
two automatons built by the same sequence of `new`, `add_state` and
`add_transition` calls (with the same predicates), fed the same byte sequence,
yield step by step the same success/failure results and the same final
current-state identifier. -/
theorem transition_deterministic (ops : List BuildOp) (bs : List Nat)
    (fa1 fa2 : FiniteAutomata) (h1 : fa1 = build ops) (h2 : fa2 = build ops) :
    fa1.run bs = fa2.run bs ∧
      (fa1.run bs).map (fun x => x.2.current_state) =
        (fa2.run bs).map (fun x => x.2.current_state) := by
  subst h1
  subst h2
  exact ⟨rfl, rfl⟩

/-- Witness for C8 at a concrete input: two identically wired automatons fed
the bytes `[120, 121]` produce identical step results and final state. -/
theorem transition_deterministic_witness :
    (build [BuildOp.addState, BuildOp.addTransition 0 (fun c => c == 120) 1]).run
        [120, 121] =
      (build [BuildOp.addState, BuildOp.addTransition 0 (fun c => c == 120) 1]).run
        [120, 121] :=
  (transition_deterministic
    [BuildOp.addState, BuildOp.addTransition 0 (fun c => c == 120) 1] [120, 121]
    (build [BuildOp.addState, BuildOp.addTransition 0 (fun c => c == 120) 1])
    (build [BuildOp.addState, BuildOp.addTransition 0 (fun c => c == 120) 1])
    rfl rfl).1

/-- Claim C10: a successful `transition(byte)` call modifies only the
current-state identifier: the state vector — and with it the number of states
and every state's transition list — is identical before and after the call. -/
theorem transition_success_frame (fa : FiniteAutomata) (b : Nat) (fa2 : FiniteAutomata)
    (h : fa.transition b = some (Except.ok (), fa2)) :
    fa2.states = fa.states ∧ fa2.states.length = fa.states.length ∧
      fa2.states.map State.transitions = fa.states.map State.transitions := by
  have hs : fa2.states = fa.states := by
    cases hget : fa.states[fa.current_state]? with
    | none => simp [FiniteAutomata.transition, hget] at h
    | some st =>
        cases hfind : st.transitions.find? (fun t => t.predicate b) with
        | some t =>
            simp only [FiniteAutomata.transition, hget, hfind, Option.some.injEq,
              Prod.mk.injEq] at h
            obtain ⟨-, h2⟩ := h
            rw [← h2]
        | none =>
            simp [FiniteAutomata.transition, hget, hfind] at h
  exact ⟨hs, by rw [hs], by rw [hs]⟩

/-- Witness for C10 at a concrete input: the successful transition on byte `5`
moves `exampleAutomata2` to state `1` while leaving its state vector, state
count and transition lists unchanged. -/
theorem transition_success_frame_witness :
    ({ exampleAutomata2 with current_state := 1 } : FiniteAutomata).states =
        exampleAutomata2.states ∧
      ({ exampleAutomata2 with current_state := 1 } : FiniteAutomata).states.length =
        exampleAutomata2.states.length ∧
      ({ exampleAutomata2 with current_state := 1 } : FiniteAutomata).states.map
          State.transitions =
        exampleAutomata2.states.map State.transitions :=
  transition_success_frame exampleAutomata2 5
    { exampleAutomata2 with current_state := 1 } rfl
